import Mathlib

/-!
Verification development for a document question-answering system
(document loader, text splitter, embeddings indexer, Pinecone vector-store
manager, retriever).  The Python sources are shallowly embedded as Lean
definitions; theorems below settle the specified properties against them.

Conventions of the embedding:
* Python dicts holding chunk metadata carry a fixed set of optional keys
  (source, hash, page, row, start_index, page_content); they are modelled
  by a structure of Option fields, a missing key being none.
* The external Pinecone index is modelled as a list of stored records plus
  the dimension it was created with; upsert overwrites by id, delete
  filters by metadata hash equality, exactly as the REST operations the
  code invokes behave.
* The random uuid4 generator in the embedder is modelled as a stream of
  strings consumed positionally (one per embedded chunk); the embedding
  model is an opaque batch function from texts to vectors.
* Exceptions are modelled with Except String.
-/

/-- Metadata dictionary attached to documents, items and stored vectors.
The loader writes source and hash, plus page (PDF) or row (CSV); the text
splitter adds start_index; a missing dict key is none. -/
structure Metadata where
  source : Option String
  hash : Option String
  page : Option Nat
  row : Option Nat
  start_index : Option Nat
  page_content : Option String
deriving DecidableEq

/-- A langchain Document: page_content plus its metadata dict. -/
structure Document where
  page_content : String
  metadata : Metadata
deriving DecidableEq

/-- An item produced by EmbeddingsIndexer.aembed_documents:
a dict with keys id, embedding and metadata. -/
structure Item where
  id : String
  embedding : List Int
  metadata : Metadata
deriving DecidableEq

/-- A vector stored in the Pinecone index: the dict
with keys id, values and metadata built in PineconeManager.upsert. -/
structure StoredRecord where
  id : String
  values : List Int
  metadata : Metadata
deriving DecidableEq

/-- The record shipped to the store for an item
(database.py line 93: id, values := embedding, metadata). -/
def toRecord (it : Item) : StoredRecord :=
  ⟨it.id, it.embedding, it.metadata⟩

/-- The external Pinecone index: the dimension it was created with and the
records it currently holds (single namespace, as in the code). -/
structure PineconeIndex where
  dimension : Nat
  records : List StoredRecord
deriving DecidableEq

/-- State of a PineconeManager: the remote index if it exists, whether
self.index is connected (not None), and the index_was_created flag. -/
structure PMState where
  remote : Option PineconeIndex
  connected : Bool
  index_was_created : Bool
deriving DecidableEq

/-- PineconeManager.__init__ composed with _get_or_create_index (no
dimension): connect to the remote index when it exists, else leave
self.index as None; index_was_created starts False. -/
def PMState.init (remote : Option PineconeIndex) : PMState :=
  ⟨remote, remote.isSome, false⟩

/-- One call the manager issues against the external store during upsert:
a delete filtered by metadata hash, or one batched insert. -/
inductive Op where
  | deleteOp (h : String)
  | insertOp (batch : List StoredRecord)
deriving DecidableEq

/-- Pinecone upsert semantics for a single record: insert, overwriting any
record with the same id. -/
def upsertOne (idx : PineconeIndex) (r : StoredRecord) : PineconeIndex :=
  { idx with records := idx.records.filter (fun s => s.id != r.id) ++ [r] }

/-- PineconeManager.delete_by_hash, lines 97-105: the store removes every
record whose metadata hash equals the given value. -/
def deleteByHashRecords (idx : PineconeIndex) (h : String) : PineconeIndex :=
  { idx with records := idx.records.filter (fun s => s.metadata.hash != some h) }

/-- Effect of one store call on the remote index. -/
def applyOp (idx : PineconeIndex) : Op → PineconeIndex
  | Op.deleteOp h => deleteByHashRecords idx h
  | Op.insertOp b => b.foldl upsertOne idx

/-- Fuelled batching helper: the fuel dominates the list length, so the
recursion is structural and kernel-evaluable. -/
def chunksOfFuel {α : Type} (bs : Nat) : Nat → List α → List (List α)
  | _, [] => []
  | 0, _ :: _ => []
  | fuel + 1, a :: l => ((a :: l).take bs) :: chunksOfFuel bs fuel ((a :: l).drop bs)

/-- The batches `items_to_upsert[i:i + batch_size]` of database.py lines
91-92.  Only used with a positive batch size; Python range would raise on
step 0, and the program always uses the default batch size 100. -/
def chunksOf {α : Type} (bs : Nat) (l : List α) : List (List α) :=
  chunksOfFuel bs l.length l

/-- Append an item to the group of its hash, keeping dict insertion order;
a new hash opens a group at the end (Python defaultdict inside a dict). -/
def addToGroups : List (String × List Item) → String → Item → List (String × List Item)
  | [], h, it => [(h, [it])]
  | (k, g) :: rest, h, it =>
    if k = h then (k, g ++ [it]) :: rest else (k, g) :: addToGroups rest h it

/-- One step of the grouping loop of database.py lines 81-83: items whose
metadata dict has no hash key are skipped. -/
def insertGrouped (acc : List (String × List Item)) (it : Item) : List (String × List Item) :=
  match it.metadata.hash with
  | none => acc
  | some h => addToGroups acc h it

/-- The `items_by_hash` grouping of database.py lines 80-83. -/
def groupByHash (items : List Item) : List (String × List Item) :=
  items.foldl insertGrouped []

/-- Store calls issued for one hash group (database.py lines 85-95): a
delete by hash unless the index was just created, then the batched
inserts. -/
def groupOps (wasCreated : Bool) (bs : Nat) (g : String × List Item) : List Op :=
  (if wasCreated then [] else [Op.deleteOp g.1]) ++
    (chunksOf bs g.2).map (fun b => Op.insertOp (b.map toRecord))

/-- PineconeManager._get_or_create_index with a dimension (lines 33-58):
connect when the remote index exists; otherwise create it with the given
dimension and set index_was_created. -/
def get_or_create_index (st : PMState) (dim : Nat) : PMState :=
  match st.remote with
  | some _ => { st with connected := true }
  | none => ⟨some ⟨dim, []⟩, true, true⟩

/-- Lines 73-77 of database.py: when self.index is None, derive the
dimension from the first item and create the index; a zero dimension is a
ValueError. -/
def ensureIndex (st : PMState) (firstItem : Item) : Except String PMState :=
  if st.connected then Except.ok st
  else if firstItem.embedding.length = 0 then
    Except.error "Cannot determine embedding dimension from the first item."
  else Except.ok (get_or_create_index st firstItem.embedding.length)

/-- Run the issued store calls against the remote index, if any. -/
def applyOps (st : PMState) (ops : List Op) : PMState :=
  { st with remote := st.remote.map (fun idx => ops.foldl applyOp idx) }

/-- PineconeManager.upsert, lines 60-95.  Returns the new manager state
together with the trace of store calls the method issued, in order. -/
def upsert (st : PMState) (items : List Item) (bs : Nat) :
    Except String (PMState × List Op) :=
  match items with
  | [] => Except.ok (st, [])
  | it :: _ =>
    match ensureIndex st it with
    | Except.error e => Except.error e
    | Except.ok st1 =>
      let ops := (groupByHash items).flatMap (groupOps st1.index_was_created bs)
      Except.ok (applyOps st1 ops, ops)

/-- Records currently stored, seen through the manager state. -/
def recordsOf (st : PMState) : List StoredRecord :=
  match st.remote with
  | some idx => idx.records
  | none => []

/-- Ids of the records currently stored. -/
def idsOf (st : PMState) : List String :=
  (recordsOf st).map (fun r => r.id)

/-- A match returned by the store for a query: its similarity score and
its stored metadata (include_metadata=True). -/
structure QMatch where
  score : Int
  metadata : Metadata
deriving DecidableEq

/-- PineconeManager.query, lines 107-123: with self.index None it logs and
returns the empty list; otherwise it forwards to the external similarity
search (an opaque parameter here) and returns its matches.  The method
mutates no manager state, so the state is returned unchanged. -/
def query (sq : Option PineconeIndex → List Int → Nat → List QMatch)
    (st : PMState) (query_vector : List Int) (top_k : Nat) :
    List QMatch × PMState :=
  if st.connected then (sq st.remote query_vector top_k, st) else ([], st)

/-- EmbeddingsIndexer.aembed_documents, embeddings.py lines 40-51: drop
documents with empty page_content, embed the surviving texts as one batch,
and zip the vectors back, drawing a fresh uuid4 string per produced item.
The uuid stream is positional; the embedding service is the opaque
embedF. -/
def aembed_documents (uuids : Nat → String) (embedF : List String → List (List Int))
    (docs : List Document) : List Item :=
  let docs_with_content := docs.filter (fun d => d.page_content != "")
  let texts := docs_with_content.map (fun d => d.page_content)
  let vectors := embedF texts
  (docs_with_content.zip vectors).enum.map (fun p => ⟨uuids p.1, p.2.2, p.2.1.metadata⟩)

/-- Modelled from the spec: the identifier derivation the specification
asserts for the embedder,
contentHash-startOffset-pageIndex(or 0)-rowIndex(or 0), written here only
to be compared against what aembed_documents actually produces. -/
def specChunkId (m : Metadata) : String :=
  m.hash.getD "" ++ "-" ++ toString (m.start_index.getD 0) ++ "-" ++
    toString (m.page.getD 0) ++ "-" ++ toString (m.row.getD 0)

/-- The first embedding dimension `len(items[0].get("embedding", []))` of
database.py line 74. -/
def firstDim (items : List Item) : Nat :=
  match items with
  | [] => 0
  | it :: _ => it.embedding.length

/-- main.py run_indexing steps 4-5: embed the chunks and upsert them with
the default batch size 100 on a freshly constructed manager. -/
def runIndexing (uuids : Nat → String) (embedF : List String → List (List Int))
    (chunks : List Document) (remote : Option PineconeIndex) :
    Except String (PMState × List Op) :=
  upsert (PMState.init remote) (aembed_documents uuids embedF chunks) 100

/-- A parsed CSV table, the outcome of the external pandas read_csv the
loader consumes: the column names and, per data row, one optional string
per column (none models a NaN cell). -/
structure Table where
  columns : List String
  rows : List (List (Option String))
deriving DecidableEq

/-- Split a character list on a separator character, keeping empty
pieces. -/
def splitOnCharAux (c : Char) : List Char → List Char → List (List Char)
  | [], acc => [acc.reverse]
  | a :: rest, acc =>
    if a = c then acc.reverse :: splitOnCharAux c rest []
    else splitOnCharAux c rest (a :: acc)

/-- Split a string on a separator character (kernel-evaluable stand-in for
String.splitOn with a one-character separator). -/
def splitOnChar (c : Char) (s : String) : List String :=
  (splitOnCharAux c s.data []).map (fun l => String.mk l)

/-- Model of the external pandas read_csv call of document_loader.py line
132 (dtype=str): first line is the header, later non-blank lines are data
rows, an empty cell is NaN, and a row whose width disagrees with the
header is a parse error.  Parsing is an external collaborator; this model
covers the simple well-formed and ragged inputs the claims exercise. -/
def parseCsv (s : String) : Except String Table :=
  match splitOnChar (Char.ofNat 10) s with
  | [] => Except.error "EmptyDataError"
  | header :: rest =>
    if header = "" then Except.error "EmptyDataError"
    else
      let columns := splitOnChar (Char.ofNat 44) header
      let dataLines := rest.filter (fun l => l != "")
      let rows := dataLines.map
        (fun l => (splitOnChar (Char.ofNat 44) l).map
          (fun cell => if cell = "" then none else some cell))
      if rows.all (fun r => r.length == columns.length) then Except.ok ⟨columns, rows⟩
      else Except.error "ParserError"

/-- A file as the loader sees it: basename, lowercased extension, whether
the OS lets us read it, the SHA-256 digest of its raw bytes (hashing is
hashlib, external), its decoded text, and what the external PDF and DOCX
extractors would return for it. -/
structure MFile where
  name : String
  ext : String
  readable : Bool
  sha256 : String
  text : String
  pdfPages : List String
  docxParas : List String
deriving DecidableEq

/-- DocumentLoader.SUPPORTED. -/
def SUPPORTED : List String := [".txt", ".md", ".pdf", ".docx", ".csv"]

/-- The meta_base dict of document_loader.py line 74. -/
def metaBase (source_id : String) (file_hash : String) : Metadata :=
  ⟨some source_id, some file_hash, none, none, none, none⟩

/-- DocumentLoader._compute_file_hash, lines 60-67: open the file and
digest its raw bytes; opening an unreadable file raises, and nothing in
the loader catches it. -/
def compute_file_hash (f : MFile) : Except String String :=
  if f.readable then Except.ok f.sha256
  else Except.error ("FileReadFailure: " ++ f.name)

/-- Python `txt.strip()` truthiness: the string has some non-whitespace
character. -/
def nonBlank (s : String) : Bool :=
  s.data.any (fun c => !c.isWhitespace)

/-- DocumentLoader._load_text, lines 90-93. -/
def load_text (f : MFile) (m : Metadata) : Document :=
  ⟨f.text, m⟩

/-- DocumentLoader._load_pdf, lines 96-111: one document per page with
non-blank extracted text, pages numbered from 1. -/
def load_pdf (f : MFile) (m : Metadata) : List Document :=
  f.pdfPages.enum.filterMap (fun p =>
    if nonBlank p.2 then some ⟨p.2, { m with page := some (p.1 + 1) }⟩ else none)

/-- DocumentLoader._load_docx, lines 114-125: non-blank paragraphs joined
with a newline into one document. -/
def load_docx (f : MFile) (m : Metadata) : Document :=
  ⟨String.intercalate "\n" (f.docxParas.filter nonBlank), m⟩

/-- Row serialization of document_loader.py line 135: column/value pairs
joined with a space-newline separator, NaN cells skipped. -/
def rowText (columns : List String) (r : List (Option String)) : String :=
  String.intercalate " \n"
    ((columns.zip r).filterMap (fun p => p.2.map (fun v => p.1 ++ ": " ++ v)))

/-- DocumentLoader._load_csv, lines 128-150: on a successful parse, one
document per row with the row index in metadata; on a pandas error, fall
back to the raw text as a single document. -/
def load_csv (parsed : Except String Table) (raw : String) (m : Metadata) :
    List Document :=
  match parsed with
  | Except.ok t =>
    t.rows.enum.map (fun p => ⟨rowText t.columns p.2, { m with row := some p.1 }⟩)
  | Except.error _ => [⟨raw, m⟩]

/-- DocumentLoader._load_file, lines 70-83: hash the raw bytes first (an
unreadable file raises here), then dispatch on the extension.  The
optional parser libraries are taken as installed. -/
def load_file (f : MFile) : Except String (List Document) :=
  match compute_file_hash f with
  | Except.error e => Except.error e
  | Except.ok file_hash =>
    let m := metaBase f.name file_hash
    if f.ext = ".txt" ∨ f.ext = ".md" then Except.ok [load_text f m]
    else if f.ext = ".pdf" then Except.ok (load_pdf f m)
    else if f.ext = ".docx" then Except.ok [load_docx f m]
    else if f.ext = ".csv" then Except.ok (load_csv (parseCsv f.text) f.text m)
    else Except.ok []

/-- The directory walk of DocumentLoader.load, lines 41-53: visit the
files in order, count and load the supported ones, silently skip the
rest.  An exception from any file aborts the whole call, discarding the
documents gathered so far. -/
def loadAux (acc : List Document × Nat) : List MFile → Except String (List Document × Nat)
  | [] => Except.ok acc
  | f :: rest =>
    if f.ext ∈ SUPPORTED then
      match load_file f with
      | Except.error e => Except.error e
      | Except.ok ds => loadAux (acc.1 ++ ds, acc.2 + 1) rest
    else loadAux acc rest

/-- DocumentLoader.load on a directory, given its walked file list. -/
def load (files : List MFile) : Except String (List Document × Nat) :=
  loadAux ([], 0) files

/-- The sort key of the retriever in main.py lines 121-126:
(source, page, row, start_index) with the dict-get defaults. -/
def matchKey (m : QMatch) : String × Nat × Nat × Nat :=
  (m.metadata.source.getD "", m.metadata.page.getD 0,
    m.metadata.row.getD 0, m.metadata.start_index.getD 0)

/-- Kernel-evaluable string comparison (String lt is the lexicographic
order on the underlying character lists). -/
def strLtB (a b : String) : Bool :=
  decide (a.data < b.data)

/-- Lexicographic comparison of the three numeric key components. -/
def tripleLe (x y : Nat × Nat × Nat) : Bool :=
  decide (toLex (x.1, toLex (x.2.1, x.2.2)) ≤ toLex (y.1, toLex (y.2.1, y.2.2)))

/-- Python tuple comparison on the sort key. -/
def keyLe (a b : String × Nat × Nat × Nat) : Bool :=
  strLtB a.1 b.1 || (a.1 == b.1 && tripleLe a.2 b.2)

/-- Ordering of matches by their sort key. -/
def matchLe (a b : QMatch) : Prop :=
  keyLe (matchKey a) (matchKey b) = true

instance instDecMatchLe : DecidableRel matchLe :=
  fun a b => inferInstanceAs (Decidable (keyLe (matchKey a) (matchKey b) = true))

/-- The `sorted(matches, key=...)` call of main.py lines 119-127.  Python
sorted is a stable sort by the key; insertion sort over the key order is
stable as well, hence extensionally the same function. -/
def retrieverSorted (ms : List QMatch) : List QMatch :=
  List.insertionSort matchLe ms

/-- The dict access match.metadata.page_content of main.py line 130; a
missing key is a KeyError. -/
def getContent (m : QMatch) : Except String String :=
  match m.metadata.page_content with
  | some t => Except.ok t
  | none => Except.error "KeyError: page_content"

/-- The context assembly of main.py lines 113-131: sort the matches by
(source, page, row, start_index) and join their stored chunk texts with
the visible separator. -/
def retrieverContext (ms : List QMatch) : Except String String :=
  ((retrieverSorted ms).mapM getContent).map
    (fun ts => String.intercalate "\n---\n" ts)

/-- Totality of the tuple comparison underlying the retriever sort. -/
theorem keyLe_total (x y : String × Nat × Nat × Nat) :
    keyLe x y = true ∨ keyLe y x = true := by
  rcases lt_trichotomy x.1.data y.1.data with hlt | heq | hgt
  · left
    simp [keyLe, strLtB, hlt]
  · have hxy : x.1 = y.1 := String.ext heq
    rcases le_total (toLex (x.2.1, toLex (x.2.2.1, x.2.2.2)))
        (toLex (y.2.1, toLex (y.2.2.1, y.2.2.2))) with hle | hle
    · left
      simp [keyLe, tripleLe, hxy, hle]
    · right
      simp [keyLe, tripleLe, hxy, hle]
  · right
    simp [keyLe, strLtB, hgt]

/-- Transitivity of the tuple comparison underlying the retriever sort. -/
theorem keyLe_trans (x y z : String × Nat × Nat × Nat)
    (h1 : keyLe x y = true) (h2 : keyLe y z = true) : keyLe x z = true := by
  simp only [keyLe, Bool.or_eq_true, Bool.and_eq_true, beq_iff_eq, strLtB,
    tripleLe, decide_eq_true_eq] at h1 h2 ⊢
  rcases h1 with h1 | ⟨h1e, h1t⟩
  · rcases h2 with h2 | ⟨h2e, h2t⟩
    · exact Or.inl (lt_trans h1 h2)
    · exact Or.inl (h2e ▸ h1)
  · rcases h2 with h2 | ⟨h2e, h2t⟩
    · refine Or.inl ?_
      rw [h1e]
      exact h2
    · exact Or.inr ⟨h1e.trans h2e, le_trans h1t h2t⟩

instance : IsTotal QMatch matchLe :=
  ⟨fun a b => keyLe_total (matchKey a) (matchKey b)⟩

instance : IsTrans QMatch matchLe :=
  ⟨fun a b c => keyLe_trans (matchKey a) (matchKey b) (matchKey c)⟩

/-- Extracting page_content succeeds on every match that carries it. -/
theorem mapM_getContent_eq (l : List QMatch)
    (h : ∀ m ∈ l, (m.metadata.page_content).isSome) :
    l.mapM getContent =
      Except.ok (l.map (fun m => (m.metadata.page_content).getD "")) := by
  induction l with
  | nil => rfl
  | cons a l ih =>
    have ha := h a (List.mem_cons_self a l)
    match hpc : a.metadata.page_content with
    | some t =>
      have ihh := ih (fun m hm => h m (List.mem_cons_of_mem a hm))
      rw [List.mapM_cons, ihh]
      simp only [getContent, hpc, List.map_cons, Option.getD_some]
      rfl
    | none => simp [hpc] at ha

/-- C7: for every query, the retriever reorders the matches returned by
the store into ascending (sourceId, pageIndex, rowIndex, startOffset)
order, regardless of the similarity rank they arrived in, and joins the
stored chunk text of the matches in that order with the visible separator
into one context string. -/
theorem retriever_reorders (ms : List QMatch)
    (hc : ∀ m ∈ ms, (m.metadata.page_content).isSome) :
    List.Sorted matchLe (retrieverSorted ms) ∧
    (retrieverSorted ms).Perm ms ∧
    retrieverContext ms =
      Except.ok (String.intercalate "\n---\n"
        ((retrieverSorted ms).map (fun m => (m.metadata.page_content).getD ""))) := by
  refine ⟨List.sorted_insertionSort matchLe ms, List.perm_insertionSort matchLe ms, ?_⟩
  have hc2 : ∀ m ∈ retrieverSorted ms, (m.metadata.page_content).isSome := by
    intro m hm
    exact hc m ((List.perm_insertionSort matchLe ms).mem_iff.mp hm)
  unfold retrieverContext
  rw [mapM_getContent_eq _ hc2]
  rfl

/-- Match from source B page 2, as returned first by similarity. -/
def exB2 : QMatch := ⟨90, ⟨some "B", none, some 2, none, some 0, some "B2"⟩⟩

/-- Match from source A page 1, returned second by similarity. -/
def exA1 : QMatch := ⟨80, ⟨some "A", none, some 1, none, some 0, some "A1"⟩⟩

/-- Match from source A page 3, returned third by similarity. -/
def exA3 : QMatch := ⟨70, ⟨some "A", none, some 3, none, some 0, some "A3"⟩⟩

/-- Witness for C7: the spec scenario — similarity order
{B: page2, A: page1, A: page3} is reassembled as {A: page1, A: page3,
B: page2}. -/
theorem retriever_reorders_witness :
    (∀ m ∈ [exB2, exA1, exA3], (m.metadata.page_content).isSome) ∧
    (List.Sorted matchLe (retrieverSorted [exB2, exA1, exA3]) ∧
      (retrieverSorted [exB2, exA1, exA3]).Perm [exB2, exA1, exA3] ∧
      retrieverContext [exB2, exA1, exA3] =
        Except.ok (String.intercalate "\n---\n"
          ((retrieverSorted [exB2, exA1, exA3]).map
            (fun m => (m.metadata.page_content).getD "")))) ∧
    retrieverSorted [exB2, exA1, exA3] = [exA1, exA3, exB2] ∧
    retrieverContext [exB2, exA1, exA3] = Except.ok "A1\n---\nA3\n---\nB2" :=
  ⟨by decide, retriever_reorders [exB2, exA1, exA3] (by decide), by decide, rfl⟩

/-- With enough fuel the batches flatten back to the original list. -/
theorem chunksOfFuel_flatten {α : Type} (bs : Nat) (hbs : 0 < bs) :
    ∀ (fuel : Nat) (l : List α), l.length ≤ fuel →
      (chunksOfFuel bs fuel l).flatten = l := by
  intro fuel
  induction fuel with
  | zero =>
    intro l hl
    match l with
    | [] => rfl
    | a :: l => simp at hl
  | succ f ih =>
    intro l hl
    match l with
    | [] => rfl
    | a :: l =>
      simp only [chunksOfFuel, List.flatten_cons]
      rw [ih]
      · exact List.take_append_drop bs (a :: l)
      · rw [List.length_drop]
        simp only [List.length_cons] at hl ⊢
        omega

/-- Batching partitions the list: the batches flatten back to it. -/
theorem chunksOf_flatten {α : Type} (bs : Nat) (hbs : 0 < bs) (l : List α) :
    (chunksOf bs l).flatten = l :=
  chunksOfFuel_flatten bs hbs l.length l le_rfl

/-- Every batch respects the batch-size bound. -/
theorem length_le_of_mem_chunksOfFuel {α : Type} (bs : Nat) :
    ∀ (f : Nat) (l c : List α), c ∈ chunksOfFuel bs f l → c.length ≤ bs := by
  intro f
  induction f with
  | zero =>
    intro l c hc
    match l with
    | [] => simp [chunksOfFuel] at hc
    | _ :: _ => simp [chunksOfFuel] at hc
  | succ f ih =>
    intro l c hc
    match l with
    | [] => simp [chunksOfFuel] at hc
    | a :: l =>
      simp only [chunksOfFuel, List.mem_cons] at hc
      rcases hc with rfl | hc
      · rw [List.length_take]
        exact min_le_left _ _
      · exact ih _ c hc

/-- Every batch respects the batch-size bound. -/
theorem length_le_of_mem_chunksOf {α : Type} (bs : Nat) (l c : List α)
    (hc : c ∈ chunksOf bs l) : c.length ≤ bs :=
  length_le_of_mem_chunksOfFuel bs l.length l c hc

/-- Batch elements come from the batched list. -/
theorem subset_of_mem_chunksOfFuel {α : Type} (bs : Nat) :
    ∀ (f : Nat) (l c : List α), c ∈ chunksOfFuel bs f l → ∀ x ∈ c, x ∈ l := by
  intro f
  induction f with
  | zero =>
    intro l c hc
    match l with
    | [] => simp [chunksOfFuel] at hc
    | _ :: _ => simp [chunksOfFuel] at hc
  | succ f ih =>
    intro l c hc x hx
    match l with
    | [] => simp [chunksOfFuel] at hc
    | a :: l =>
      simp only [chunksOfFuel, List.mem_cons] at hc
      rcases hc with rfl | hc
      · exact List.take_subset bs (a :: l) hx
      · exact List.drop_subset bs (a :: l) (ih _ c hc x hx)

/-- Batch elements come from the batched list. -/
theorem subset_of_mem_chunksOf {α : Type} (bs : Nat) (l c : List α)
    (hc : c ∈ chunksOf bs l) : ∀ x ∈ c, x ∈ l :=
  subset_of_mem_chunksOfFuel bs l.length l c hc

/-- Every element of the list lands in some batch. -/
theorem exists_mem_chunksOf {α : Type} (bs : Nat) (hbs : 0 < bs) (l : List α)
    (x : α) (hx : x ∈ l) : ∃ c ∈ chunksOf bs l, x ∈ c := by
  rw [← chunksOf_flatten bs hbs l] at hx
  exact List.mem_flatten.mp hx

/-- Batching commutes with mapping. -/
theorem chunksOfFuel_map {α β : Type} (g : α → β) (bs : Nat) :
    ∀ (f : Nat) (l : List α),
      chunksOfFuel bs f (l.map g) = (chunksOfFuel bs f l).map (List.map g) := by
  intro f
  induction f with
  | zero =>
    intro l
    match l with
    | [] => rfl
    | _ :: _ => rfl
  | succ f ih =>
    intro l
    match l with
    | [] => rfl
    | a :: l =>
      have h1 : chunksOfFuel bs (f + 1) (List.map g (a :: l)) =
          (List.map g (a :: l)).take bs ::
            chunksOfFuel bs f ((List.map g (a :: l)).drop bs) := rfl
      have h2 : chunksOfFuel bs (f + 1) (a :: l) =
          ((a :: l)).take bs :: chunksOfFuel bs f ((a :: l).drop bs) := rfl
      rw [h1, h2, List.map_cons (List.map g)]
      congr 1
      · exact (List.map_take g (a :: l) bs).symm
      · rw [← List.map_drop, ih]

/-- Batching commutes with mapping. -/
theorem chunksOf_map {α β : Type} (g : α → β) (bs : Nat) (l : List α) :
    chunksOf bs (l.map g) = (chunksOf bs l).map (List.map g) := by
  unfold chunksOf
  rw [List.length_map]
  exact chunksOfFuel_map g bs l.length l

/-- Adding an item to its hash group preserves a per-item property of the
groups, provided the new item satisfies it for its own hash. -/
theorem addToGroups_sound (P : Item → String → Prop) (a : Item) (h : String)
    (hP : P a h) :
    ∀ (acc : List (String × List Item)),
      (∀ p ∈ acc, ∀ it ∈ p.2, P it p.1) →
      ∀ p ∈ addToGroups acc h a, ∀ it ∈ p.2, P it p.1 := by
  intro acc
  induction acc with
  | nil =>
    intro _ p hp it hit
    simp only [addToGroups, List.mem_singleton] at hp
    subst hp
    simp only [List.mem_singleton] at hit
    subst hit
    exact hP
  | cons q rest ih =>
    intro hacc p hp it hit
    match q with
    | (k, g) =>
      by_cases hk : k = h
      · rw [addToGroups, if_pos hk] at hp
        rcases List.mem_cons.mp hp with rfl | hp
        · rcases List.mem_append.mp hit with hit | hit
          · exact hacc (k, g) (List.mem_cons_self _ _) it hit
          · simp only [List.mem_singleton] at hit
            subst hit
            exact hk ▸ hP
        · exact hacc p (List.mem_cons_of_mem _ hp) it hit
      · rw [addToGroups, if_neg hk] at hp
        rcases List.mem_cons.mp hp with rfl | hp
        · exact hacc (k, g) (List.mem_cons_self _ _) it hit
        · exact ih (fun p2 hp2 => hacc p2 (List.mem_cons_of_mem _ hp2)) p hp it hit

/-- Folding the grouping loop preserves a per-item property of the groups,
provided every grouped item satisfies it for its own hash. -/
theorem foldl_insertGrouped_sound (P : Item → String → Prop) :
    ∀ (items : List Item) (acc : List (String × List Item)),
      (∀ p ∈ acc, ∀ it ∈ p.2, P it p.1) →
      (∀ it ∈ items, ∀ h, it.metadata.hash = some h → P it h) →
      ∀ p ∈ items.foldl insertGrouped acc, ∀ it ∈ p.2, P it p.1 := by
  intro items
  induction items with
  | nil =>
    intro acc hacc _ p hp it hit
    exact hacc p hp it hit
  | cons a items ih =>
    intro acc hacc hitems
    rw [List.foldl_cons]
    apply ih
    · intro p hp it hit
      cases hha : a.metadata.hash with
      | none =>
        rw [insertGrouped, hha] at hp
        exact hacc p hp it hit
      | some h =>
        rw [insertGrouped, hha] at hp
        exact addToGroups_sound P a h
          (hitems a (List.mem_cons_self _ _) h hha) acc hacc p hp it hit
    · intro it hit h hh
      exact hitems it (List.mem_cons_of_mem _ hit) h hh

/-- Soundness of the grouping: every grouped item carries the hash of its
group and comes from the input list. -/
theorem groupByHash_sound (items : List Item) :
    ∀ p ∈ groupByHash items, ∀ it ∈ p.2,
      it.metadata.hash = some p.1 ∧ it ∈ items := by
  apply foldl_insertGrouped_sound (fun it h => it.metadata.hash = some h ∧ it ∈ items)
  · intro p hp
    simp at hp
  · intro it hit h hh
    exact ⟨hh, hit⟩

/-- Groups are never empty. -/
theorem addToGroups_ne (a : Item) (h : String) :
    ∀ (acc : List (String × List Item)),
      (∀ p ∈ acc, p.2 ≠ []) →
      ∀ p ∈ addToGroups acc h a, p.2 ≠ [] := by
  intro acc
  induction acc with
  | nil =>
    intro _ p hp
    simp only [addToGroups, List.mem_singleton] at hp
    subst hp
    simp
  | cons q rest ih =>
    intro hacc p hp
    match q with
    | (k, g) =>
      by_cases hk : k = h
      · rw [addToGroups, if_pos hk] at hp
        rcases List.mem_cons.mp hp with rfl | hp
        · simp
        · exact hacc p (List.mem_cons_of_mem _ hp)
      · rw [addToGroups, if_neg hk] at hp
        rcases List.mem_cons.mp hp with rfl | hp
        · exact hacc (k, g) (List.mem_cons_self _ _)
        · exact ih (fun p2 hp2 => hacc p2 (List.mem_cons_of_mem _ hp2)) p hp

/-- Groups are never empty. -/
theorem groupByHash_ne (items : List Item) :
    ∀ p ∈ groupByHash items, p.2 ≠ [] := by
  suffices hgen : ∀ (l : List Item) (acc : List (String × List Item)),
      (∀ p ∈ acc, p.2 ≠ []) → ∀ p ∈ l.foldl insertGrouped acc, p.2 ≠ [] by
    apply hgen items []
    intro p hp
    simp at hp
  intro l
  induction l with
  | nil => intro acc hacc p hp; exact hacc p hp
  | cons a l ih =>
    intro acc hacc
    rw [List.foldl_cons]
    apply ih
    intro p hp
    cases hha : a.metadata.hash with
    | none =>
      rw [insertGrouped, hha] at hp
      exact hacc p hp
    | some h => exact addToGroups_ne a h acc hacc p (by rwa [insertGrouped, hha] at hp)

/-- An added item lands in the group of its hash. -/
theorem addToGroups_self (a : Item) (h : String) :
    ∀ (acc : List (String × List Item)),
      ∃ g, (h, g) ∈ addToGroups acc h a ∧ a ∈ g := by
  intro acc
  induction acc with
  | nil => exact ⟨[a], List.mem_singleton.mpr rfl, List.mem_singleton.mpr rfl⟩
  | cons q rest ih =>
    match q with
    | (k, g) =>
      by_cases hk : k = h
      · subst hk
        refine ⟨g ++ [a], ?_, List.mem_append.mpr (Or.inr (List.mem_singleton.mpr rfl))⟩
        rw [addToGroups, if_pos rfl]
        exact List.mem_cons_self _ _
      · obtain ⟨g2, hg2, hag2⟩ := ih
        refine ⟨g2, ?_, hag2⟩
        rw [addToGroups, if_neg hk]
        exact List.mem_cons_of_mem _ hg2

/-- Adding an item never loses a grouped item. -/
theorem addToGroups_mono (a : Item) (h h0 : String) (it : Item) :
    ∀ (acc : List (String × List Item)) (g0 : List Item),
      (h0, g0) ∈ acc → it ∈ g0 →
      ∃ g1, (h0, g1) ∈ addToGroups acc h a ∧ it ∈ g1 := by
  intro acc
  induction acc with
  | nil =>
    intro g0 hg0
    simp at hg0
  | cons q rest ih =>
    intro g0 hg0 hit
    match q with
    | (k, g) =>
      by_cases hk : k = h
      · rcases List.mem_cons.mp hg0 with heq | hg0
        · rw [Prod.mk.injEq] at heq
          refine ⟨g ++ [a], ?_, List.mem_append.mpr (Or.inl (heq.2 ▸ hit))⟩
          rw [addToGroups, if_pos hk, heq.1]
          exact List.mem_cons_self _ _
        · refine ⟨g0, ?_, hit⟩
          rw [addToGroups, if_pos hk]
          exact List.mem_cons_of_mem _ hg0
      · rcases List.mem_cons.mp hg0 with heq | hg0
        · refine ⟨g0, ?_, hit⟩
          rw [addToGroups, if_neg hk]
          exact heq ▸ List.mem_cons_self _ _
        · obtain ⟨g1, hg1, hig1⟩ := ih g0 hg0 hit
          refine ⟨g1, ?_, hig1⟩
          rw [addToGroups, if_neg hk]
          exact List.mem_cons_of_mem _ hg1

/-- The grouping loop never loses a grouped item. -/
theorem foldl_insertGrouped_mono :
    ∀ (items : List Item) (acc : List (String × List Item))
      (h0 : String) (g0 : List Item) (it : Item),
      (h0, g0) ∈ acc → it ∈ g0 →
      ∃ g1, (h0, g1) ∈ items.foldl insertGrouped acc ∧ it ∈ g1 := by
  intro items
  induction items with
  | nil =>
    intro acc h0 g0 it hg0 hit
    exact ⟨g0, hg0, hit⟩
  | cons a items ih =>
    intro acc h0 g0 it hg0 hit
    rw [List.foldl_cons]
    cases hha : a.metadata.hash with
    | none =>
      rw [insertGrouped, hha]
      exact ih acc h0 g0 it hg0 hit
    | some h =>
      rw [insertGrouped, hha]
      obtain ⟨g1, hg1, hig1⟩ := addToGroups_mono a h h0 it acc g0 hg0 hit
      exact ih _ h0 g1 it hg1 hig1

/-- Completeness of the grouping: every item with a metadata hash appears
in the group of that hash. -/
theorem groupByHash_complete (items : List Item) (it : Item) (h : String)
    (hit : it ∈ items) (hh : it.metadata.hash = some h) :
    ∃ g, (h, g) ∈ groupByHash items ∧ it ∈ g := by
  suffices hgen : ∀ (l : List Item) (acc : List (String × List Item)),
      it ∈ l → ∃ g, (h, g) ∈ l.foldl insertGrouped acc ∧ it ∈ g from
    hgen items [] hit
  intro l
  induction l with
  | nil =>
    intro acc hmem
    simp at hmem
  | cons a l ih =>
    intro acc hmem
    rcases List.mem_cons.mp hmem with rfl | hmem
    · rw [List.foldl_cons, insertGrouped, hh]
      obtain ⟨g, hg, hig⟩ := addToGroups_self it h acc
      exact foldl_insertGrouped_mono l _ h g it hg hig
    · rw [List.foldl_cons]
      exact ih _ hmem

/-- When every item shares one hash, folding the grouping loop onto a
single group of that hash appends the items to the group. -/
theorem foldl_insertGrouped_single (hh : String) :
    ∀ (items : List Item) (g : List Item),
      (∀ it ∈ items, it.metadata.hash = some hh) →
      items.foldl insertGrouped [(hh, g)] = [(hh, g ++ items)] := by
  intro items
  induction items with
  | nil =>
    intro g _
    simp
  | cons a items ih =>
    intro g hall
    have hha := hall a (List.mem_cons_self _ _)
    have h2 : addToGroups [(hh, g)] hh a = [(hh, g ++ [a])] := by
      simp [addToGroups]
    rw [List.foldl_cons]
    simp only [insertGrouped, hha]
    rw [h2, ih (g ++ [a]) (fun it h3 => hall it (List.mem_cons_of_mem _ h3))]
    simp

/-- When every item carries the same hash, the grouping is one group
holding all the items in order. -/
theorem groupByHash_single (hh : String) (items : List Item) (hne : items ≠ [])
    (hall : ∀ it ∈ items, it.metadata.hash = some hh) :
    groupByHash items = [(hh, items)] := by
  match items with
  | [] => exact absurd rfl hne
  | a :: items =>
    have hha := hall a (List.mem_cons_self _ _)
    show (a :: items).foldl insertGrouped [] = _
    rw [List.foldl_cons]
    have h1 : insertGrouped [] a = [(hh, [a])] := by
      rw [insertGrouped, hha]
      rfl
    rw [h1, foldl_insertGrouped_single hh items [a]
      (fun it h2 => hall it (List.mem_cons_of_mem _ h2))]
    simp

/-- Inserting records never changes the index dimension. -/
theorem foldl_upsertOne_dimension (b : List StoredRecord) :
    ∀ idx, (b.foldl upsertOne idx).dimension = idx.dimension := by
  induction b with
  | nil => intro idx; rfl
  | cons r b ih =>
    intro idx
    rw [List.foldl_cons, ih]
    rfl

/-- No store call changes the index dimension. -/
theorem applyOp_dimension (idx : PineconeIndex) (op : Op) :
    (applyOp idx op).dimension = idx.dimension := by
  cases op with
  | deleteOp h => rfl
  | insertOp b => exact foldl_upsertOne_dimension b idx

/-- No trace of store calls changes the index dimension. -/
theorem foldl_applyOp_dimension (ops : List Op) :
    ∀ idx, (ops.foldl applyOp idx).dimension = idx.dimension := by
  induction ops with
  | nil => intro idx; rfl
  | cons op ops ih =>
    intro idx
    rw [List.foldl_cons, ih, applyOp_dimension]

/-- A record present after a batch insert was present before or belongs to
the batch. -/
theorem mem_foldl_upsertOne (b : List StoredRecord) :
    ∀ idx r, r ∈ (b.foldl upsertOne idx).records → r ∈ idx.records ∨ r ∈ b := by
  induction b with
  | nil =>
    intro idx r h
    exact Or.inl h
  | cons s b ih =>
    intro idx r h
    rw [List.foldl_cons] at h
    rcases ih _ r h with h1 | h1
    · rw [upsertOne] at h1
      rcases List.mem_append.mp h1 with h2 | h2
      · exact Or.inl (List.mem_of_mem_filter h2)
      · rw [List.mem_singleton] at h2
        subst h2
        exact Or.inr (List.mem_cons_self _ _)
    · exact Or.inr (List.mem_cons_of_mem _ h1)

/-- A record present after a trace of store calls was present before or
was part of some insert call of the trace. -/
theorem mem_foldl_applyOp (ops : List Op) :
    ∀ idx r, r ∈ (ops.foldl applyOp idx).records →
      r ∈ idx.records ∨ ∃ b, Op.insertOp b ∈ ops ∧ r ∈ b := by
  induction ops with
  | nil =>
    intro idx r h
    exact Or.inl h
  | cons op ops ih =>
    intro idx r h
    rw [List.foldl_cons] at h
    rcases ih _ r h with h1 | ⟨b, hb, hrb⟩
    · cases op with
      | deleteOp hh => exact Or.inl (List.mem_of_mem_filter h1)
      | insertOp b =>
        rcases mem_foldl_upsertOne b idx r h1 with h2 | h2
        · exact Or.inl h2
        · exact Or.inr ⟨b, List.mem_cons_self _ _, h2⟩
    · exact Or.inr ⟨b, List.mem_cons_of_mem _ hb, hrb⟩

/-- Inserting records with fresh pairwise-distinct ids appends them. -/
theorem foldl_upsertOne_fresh (recs : List StoredRecord) :
    ∀ idx, (∀ r ∈ recs, ∀ s ∈ idx.records, s.id ≠ r.id) →
      (recs.map (fun r => r.id)).Nodup →
      (recs.foldl upsertOne idx).records = idx.records ++ recs := by
  induction recs with
  | nil =>
    intro idx _ _
    simp
  | cons r recs ih =>
    intro idx hfresh hnd
    have h1 : (upsertOne idx r).records = idx.records ++ [r] := by
      rw [upsertOne]
      have : idx.records.filter (fun s => s.id != r.id) = idx.records := by
        apply List.filter_eq_self.mpr
        intro s hs
        exact bne_iff_ne.mpr (hfresh r (List.mem_cons_self _ _) s hs)
      rw [this]
    rw [List.map_cons, List.nodup_cons] at hnd
    rw [List.foldl_cons, ih (upsertOne idx r) ?_ hnd.2]
    · rw [h1, List.append_assoc]
      rfl
    · intro r2 hr2 s hs
      rw [h1] at hs
      rcases List.mem_append.mp hs with hs | hs
      · exact hfresh r2 (List.mem_cons_of_mem _ hr2) s hs
      · rw [List.mem_singleton] at hs
        subst hs
        intro hid
        exact hnd.1 (hid ▸ List.mem_map_of_mem (fun x => x.id) hr2)

/-- Deleting a hash empties an index whose records all carry that hash. -/
theorem deleteByHash_all (idx : PineconeIndex) (h : String)
    (hall : ∀ r ∈ idx.records, r.metadata.hash = some h) :
    (deleteByHashRecords idx h).records = [] := by
  rw [deleteByHashRecords]
  apply List.filter_eq_nil_iff.mpr
  intro r hr
  simp [hall r hr]

/-- A delete call in the trace of an upsert comes from a hash group, and
only when the created flag is off. -/
theorem mem_ops_delete (flag : Bool) (bs : Nat)
    (groups : List (String × List Item)) (h : String)
    (hm : Op.deleteOp h ∈ groups.flatMap (groupOps flag bs)) :
    flag = false ∧ ∃ g, (h, g) ∈ groups := by
  rw [List.mem_flatMap] at hm
  obtain ⟨p, hp, hop⟩ := hm
  rw [groupOps] at hop
  rcases List.mem_append.mp hop with hop | hop
  · cases flag with
    | true => simp at hop
    | false =>
      rw [if_neg (by simp), List.mem_singleton] at hop
      have hph : h = p.1 := by
        injection hop
      exact ⟨rfl, p.2, by rw [hph]; exact hp⟩
  · rw [List.mem_map] at hop
    obtain ⟨c, _, hc⟩ := hop
    exact absurd hc (by simp)

/-- An insert call in the trace of an upsert is one batch of one hash
group, mapped to records. -/
theorem mem_ops_insert (flag : Bool) (bs : Nat)
    (groups : List (String × List Item)) (b : List StoredRecord)
    (hm : Op.insertOp b ∈ groups.flatMap (groupOps flag bs)) :
    ∃ p ∈ groups, ∃ c ∈ chunksOf bs p.2, b = c.map toRecord := by
  rw [List.mem_flatMap] at hm
  obtain ⟨p, hp, hop⟩ := hm
  rw [groupOps] at hop
  rcases List.mem_append.mp hop with hop | hop
  · cases flag with
    | true => simp at hop
    | false =>
      rw [if_neg (by simp), List.mem_singleton] at hop
      exact absurd hop (by simp)
  · rw [List.mem_map] at hop
    obtain ⟨c, hcm, hc⟩ := hop
    have hbc : b = c.map toRecord := by
      injection hc.symm
    exact ⟨p, hp, c, hcm, hbc⟩

/-- Every batch of every group produces an insert call in the trace. -/
theorem insert_mem_ops (flag : Bool) (bs : Nat)
    (groups : List (String × List Item)) (p : String × List Item)
    (c : List Item) (hp : p ∈ groups) (hc : c ∈ chunksOf bs p.2) :
    Op.insertOp (c.map toRecord) ∈ groups.flatMap (groupOps flag bs) := by
  rw [List.mem_flatMap]
  refine ⟨p, hp, ?_⟩
  rw [groupOps]
  apply List.mem_append.mpr
  exact Or.inr (List.mem_map_of_mem _ hc)

/-- Inversion of a successful upsert call. -/
theorem upsert_ok_inv (st : PMState) (items : List Item) (bs : Nat)
    (st' : PMState) (ops : List Op)
    (h : upsert st items bs = Except.ok (st', ops)) :
    (items = [] ∧ st' = st ∧ ops = []) ∨
    ∃ it rest st1, items = it :: rest ∧ ensureIndex st it = Except.ok st1 ∧
      ops = (groupByHash items).flatMap (groupOps st1.index_was_created bs) ∧
      st' = applyOps st1 ops := by
  match items with
  | [] =>
    simp only [upsert, Except.ok.injEq, Prod.mk.injEq] at h
    exact Or.inl ⟨rfl, h.1.symm, h.2.symm⟩
  | it :: rest =>
    right
    simp only [upsert] at h
    cases hens : ensureIndex st it with
    | error e =>
      rw [hens] at h
      simp at h
    | ok st1 =>
      rw [hens] at h
      simp only [Except.ok.injEq, Prod.mk.injEq] at h
      refine ⟨it, rest, st1, rfl, hens, h.2.symm, ?_⟩
      rw [← h.2]
      exact h.1.symm

/-- Inversion of a successful ensureIndex step. -/
theorem ensureIndex_ok_inv (st : PMState) (it : Item) (st1 : PMState)
    (h : ensureIndex st it = Except.ok st1) :
    (st.connected = true ∧ st1 = st) ∨
    (st.connected = false ∧ it.embedding.length ≠ 0 ∧
      st1 = get_or_create_index st it.embedding.length) := by
  rw [ensureIndex] at h
  by_cases hc : st.connected = true
  · rw [if_pos hc] at h
    injection h with h2
    exact Or.inl ⟨hc, h2.symm⟩
  · have hc2 : st.connected = false := by
      simpa using hc
    rw [if_neg hc] at h
    by_cases hz : it.embedding.length = 0
    · rw [if_pos hz] at h
      simp at h
    · rw [if_neg hz] at h
      injection h with h2
      exact Or.inr ⟨hc2, hz, h2.symm⟩

/-- Index creation when no remote index exists. -/
theorem get_or_create_none (st : PMState) (dim : Nat) (h : st.remote = none) :
    get_or_create_index st dim = ⟨some ⟨dim, []⟩, true, true⟩ := by
  rw [get_or_create_index, h]

/-- Connecting when the remote index already exists. -/
theorem get_or_create_some (st : PMState) (dim : Nat) (idx : PineconeIndex)
    (h : st.remote = some idx) :
    get_or_create_index st dim = { st with connected := true } := by
  rw [get_or_create_index, h]

/-- C4: the manager is a two-state machine.  From Uninitialized (no
backing index, not connected), a successful upsert with a non-empty item
list creates the index with the first embedding length as its fixed
dimension and moves the manager to Created; whenever a backing index
already exists, any successful upsert leaves its dimension unchanged and
never performs another creation (the creation flag is untouched). -/
theorem upsert_state_machine (st : PMState) (items : List Item) (bs : Nat)
    (st' : PMState) (ops : List Op)
    (h : upsert st items bs = Except.ok (st', ops)) :
    (st.remote = none → st.connected = false → items ≠ [] →
      ∃ idx, st'.remote = some idx ∧ idx.dimension = firstDim items ∧
        st'.connected = true ∧ st'.index_was_created = true) ∧
    (∀ idx0, st.remote = some idx0 →
      ∃ idx1, st'.remote = some idx1 ∧ idx1.dimension = idx0.dimension ∧
        st'.index_was_created = st.index_was_created) := by
  rcases upsert_ok_inv st items bs st' ops h with
    ⟨hitems, hst, hops⟩ | ⟨it, rest, st1, hitems, hens, hops, hst⟩
  · subst hst
    subst hitems
    constructor
    · intro _ _ hne
      exact absurd rfl hne
    · intro idx0 h0
      exact ⟨idx0, h0, rfl, rfl⟩
  · subst hitems
    constructor
    · intro hrem hconn _
      rcases ensureIndex_ok_inv st it st1 hens with ⟨hc, _⟩ | ⟨_, hz, hst1⟩
      · rw [hconn] at hc
        exact absurd hc (by simp)
      · rw [get_or_create_none st _ hrem] at hst1
        subst hst1
        subst hst
        refine ⟨ops.foldl applyOp ⟨it.embedding.length, []⟩, ?_, ?_, rfl, rfl⟩
        · simp [applyOps]
        · rw [foldl_applyOp_dimension]
          rfl
    · intro idx0 h0
      rcases ensureIndex_ok_inv st it st1 hens with ⟨hc, hst1⟩ | ⟨hc, hz, hst1⟩
      · subst hst1
        subst hst
        refine ⟨ops.foldl applyOp idx0, ?_, foldl_applyOp_dimension ops idx0, rfl⟩
        simp [applyOps, h0]
      · rw [get_or_create_some st _ idx0 h0] at hst1
        subst hst1
        subst hst
        refine ⟨ops.foldl applyOp idx0, ?_, foldl_applyOp_dimension ops idx0, rfl⟩
        simp [applyOps, h0]

/-- Concrete item for the C4 witness. -/
def exItemC4 : Item := ⟨"uuid-c4", [1, 2], ⟨some "c4.txt", some "h4", none, none, some 0, none⟩⟩

/-- Manager state after the C4 witness upsert. -/
def exStC4 : PMState := ⟨some ⟨2, [toRecord exItemC4]⟩, true, true⟩

/-- Trace of the C4 witness upsert. -/
def exOpsC4 : List Op := [Op.insertOp [toRecord exItemC4]]

/-- Witness for C4: a fresh manager upserting one record with a length-2
embedding creates the index with dimension 2 and reaches Created. -/
theorem upsert_state_machine_witness :
    ∃ idx, exStC4.remote = some idx ∧ idx.dimension = firstDim [exItemC4] ∧
      exStC4.connected = true ∧ exStC4.index_was_created = true :=
  (upsert_state_machine (PMState.init none) [exItemC4] 100 exStC4 exOpsC4 rfl).1
    rfl rfl (by simp)

/-- An item whose vector length (3) disagrees with the established index
dimension (2), used to test C5. -/
def exItemC5 : Item := ⟨"uuid-c5", [1, 2, 3], ⟨some "c5.txt", some "h5", none, none, some 0, none⟩⟩

/-- Counterexample for C5: against a Created index of dimension 2, upsert
of a record with a length-3 vector does not fail — it succeeds and passes
the mismatched record through to the store. -/
theorem upsert_dim_mismatch_counterexample :
    upsert (PMState.init (some ⟨2, []⟩)) [exItemC5] 100 =
      Except.ok (⟨some ⟨2, [toRecord exItemC5]⟩, true, false⟩,
        [Op.deleteOp "h5", Op.insertOp [toRecord exItemC5]]) ∧
    (toRecord exItemC5).values.length ≠ 2 :=
  ⟨rfl, by decide⟩

/-- C5 (amended): upsert performs no dimension validation.  On a
connected manager it always succeeds, and every item carrying a metadata
hash — whatever its vector length — is forwarded to the store in some
insert batch. -/
theorem upsert_forwards_any_dimension (st : PMState) (items : List Item)
    (bs : Nat) (hconn : st.connected = true) (hbs : 0 < bs) :
    ∃ st' ops, upsert st items bs = Except.ok (st', ops) ∧
      ∀ it ∈ items, (it.metadata.hash).isSome →
        ∃ b, Op.insertOp b ∈ ops ∧ toRecord it ∈ b := by
  match items with
  | [] =>
    refine ⟨st, [], rfl, ?_⟩
    intro it hit
    simp at hit
  | it0 :: rest =>
    have hens : ensureIndex st it0 = Except.ok st :=
      by rw [ensureIndex, if_pos hconn]
    refine ⟨applyOps st ((groupByHash (it0 :: rest)).flatMap
      (groupOps st.index_was_created bs)),
      (groupByHash (it0 :: rest)).flatMap (groupOps st.index_was_created bs), ?_, ?_⟩
    · rw [upsert, hens]
    · intro it hit hsome
      obtain ⟨h, hh⟩ := Option.isSome_iff_exists.mp hsome
      obtain ⟨g, hg, hig⟩ := groupByHash_complete (it0 :: rest) it h hit hh
      obtain ⟨c, hc, hic⟩ := exists_mem_chunksOf bs hbs g it hig
      exact ⟨c.map toRecord,
        insert_mem_ops st.index_was_created bs _ (h, g) c hg hc,
        List.mem_map_of_mem toRecord hic⟩

/-- Item for the C5 amended-claim witness: length-3 vector against a
dimension-2 index. -/
def exItemC5w : Item := ⟨"uuid-c5w", [4, 5, 6], ⟨some "c5w.txt", some "h5w", none, none, some 0, none⟩⟩

/-- Witness for the amended C5: the mismatched record is accepted and
forwarded. -/
theorem upsert_forwards_any_dimension_witness :
    ∃ st' ops, upsert (PMState.init (some ⟨2, []⟩)) [exItemC5w] 100 =
        Except.ok (st', ops) ∧
      ∀ it ∈ [exItemC5w], (it.metadata.hash).isSome →
        ∃ b, Op.insertOp b ∈ ops ∧ toRecord it ∈ b :=
  upsert_forwards_any_dimension (PMState.init (some ⟨2, []⟩)) [exItemC5w] 100
    rfl (by decide)

/-- C9: items whose metadata dict has no hash key are silently excluded
from the per-hash grouping: every record any insert call ships comes from
an item that carries a hash, every delete is triggered by an item that
carries a hash, and a hash-less item ends up stored only if its record
was already in the store before the call. -/
theorem upsert_only_hashed_items (st : PMState) (items : List Item) (bs : Nat)
    (st' : PMState) (ops : List Op)
    (h : upsert st items bs = Except.ok (st', ops)) :
    (∀ b, Op.insertOp b ∈ ops → ∀ r ∈ b,
      ∃ it ∈ items, (it.metadata.hash).isSome ∧ r = toRecord it) ∧
    (∀ hh, Op.deleteOp hh ∈ ops → ∃ it ∈ items, it.metadata.hash = some hh) ∧
    (∀ it ∈ items, it.metadata.hash = none →
      ∀ idx1, st'.remote = some idx1 → toRecord it ∈ idx1.records →
        ∃ idx0, st.remote = some idx0 ∧ toRecord it ∈ idx0.records) := by
  rcases upsert_ok_inv st items bs st' ops h with
    ⟨hitems, hst, hops⟩ | ⟨it0, rest, st1, hitems, hens, hops, hst⟩
  · subst hst
    subst hops
    refine ⟨?_, ?_, ?_⟩
    · intro b hb
      simp at hb
    · intro hh hd
      simp at hd
    · intro it _ _ idx1 h1 hmem
      exact ⟨idx1, h1, hmem⟩
  · have hinserts : ∀ b, Op.insertOp b ∈ ops → ∀ r ∈ b,
        ∃ it ∈ items, (it.metadata.hash).isSome ∧ r = toRecord it := by
      intro b hb r hr
      rw [hops] at hb
      obtain ⟨p, hp, c, hc, hbc⟩ := mem_ops_insert _ bs _ b hb
      subst hbc
      obtain ⟨it, hitc, rfl⟩ := List.mem_map.mp hr
      have hit := subset_of_mem_chunksOf bs p.2 c hc it hitc
      obtain ⟨hhash, hmem⟩ := groupByHash_sound items p hp it hit
      exact ⟨it, hmem, by rw [hhash]; rfl, rfl⟩
    refine ⟨hinserts, ?_, ?_⟩
    · intro hh hd
      rw [hops] at hd
      obtain ⟨-, g, hg⟩ := mem_ops_delete _ bs _ hh hd
      have hne := groupByHash_ne items (hh, g) hg
      obtain ⟨itg, hitg⟩ := List.exists_mem_of_ne_nil g hne
      obtain ⟨hhash, hmem⟩ := groupByHash_sound items (hh, g) hg itg hitg
      exact ⟨itg, hmem, hhash⟩
    · intro it hit hnone idx1 h1 hmem
      subst hst
      cases hrem : st1.remote with
      | none =>
        rw [applyOps, hrem] at h1
        simp at h1
      | some idxmid =>
        rw [applyOps, hrem] at h1
        simp only [Option.map_some] at h1
        injection h1 with h1
        subst h1
        rcases mem_foldl_applyOp ops idxmid (toRecord it) hmem with hold | ⟨b, hb, hrb⟩
        · -- the record predates this call; relate idxmid to st.remote
          rcases ensureIndex_ok_inv st it0 st1 hens with ⟨hc, hst1⟩ | ⟨hc, hz, hst1⟩
          · subst hst1
            exact ⟨idxmid, hrem, hold⟩
          · cases hrem0 : st.remote with
            | none =>
              rw [get_or_create_none st _ hrem0] at hst1
              subst hst1
              injection hrem with hrem
              subst hrem
              simp at hold
            | some idx0 =>
              rw [get_or_create_some st _ idx0 hrem0] at hst1
              subst hst1
              refine ⟨idx0, rfl, ?_⟩
              have : st.remote = some idxmid := hrem
              rw [hrem0] at this
              injection this with this
              subst this
              exact hold
        · obtain ⟨it2, -, hsome, heq⟩ := hinserts b hb (toRecord it) hrb
          have : it.metadata = it2.metadata := congrArg StoredRecord.metadata heq
          rw [this] at hnone
          rw [hnone] at hsome
          simp at hsome

/-- Concrete hash-less item for the C9 witness. -/
def exItemNoHash : Item := ⟨"uuid-nohash", [1], ⟨some "n.txt", none, none, none, some 0, none⟩⟩

/-- Concrete hash-carrying item for the C9 witness. -/
def exItemHashed : Item := ⟨"uuid-hashed", [2], ⟨some "n.txt", some "h9", none, none, some 0, none⟩⟩

/-- Manager state after the C9 witness upsert: only the hashed item is
stored. -/
def exStC9 : PMState := ⟨some ⟨1, [toRecord exItemHashed]⟩, true, true⟩

/-- Trace of the C9 witness upsert: one insert, no delete, and nothing
for the hash-less item. -/
def exOpsC9 : List Op := [Op.insertOp [toRecord exItemHashed]]

/-- Witness for C9 at a concrete call mixing a hash-less and a hashed
item. -/
theorem upsert_only_hashed_items_witness :
    (∀ b, Op.insertOp b ∈ exOpsC9 → ∀ r ∈ b,
      ∃ it ∈ [exItemNoHash, exItemHashed], (it.metadata.hash).isSome ∧ r = toRecord it) ∧
    (∀ hh, Op.deleteOp hh ∈ exOpsC9 →
      ∃ it ∈ [exItemNoHash, exItemHashed], it.metadata.hash = some hh) ∧
    (∀ it ∈ [exItemNoHash, exItemHashed], it.metadata.hash = none →
      ∀ idx1, exStC9.remote = some idx1 → toRecord it ∈ idx1.records →
        ∃ idx0, (PMState.init none).remote = some idx0 ∧ toRecord it ∈ idx0.records) :=
  upsert_only_hashed_items (PMState.init none) [exItemNoHash, exItemHashed] 100
    exStC9 exOpsC9 rfl

/-- C10: querying a manager whose backing index was never created (its
self.index is still None) returns the empty match list instead of
raising, for any store behavior, query vector and topK, and leaves the
manager state unchanged. -/
theorem query_uninitialized
    (sq : Option PineconeIndex → List Int → Nat → List QMatch)
    (st : PMState) (v : List Int) (k : Nat) (h : st.connected = false) :
    query sq st v k = ([], st) := by
  rw [query, h]
  simp

/-- Witness for C10: the freshly constructed manager over a store with no
index answers an arbitrary query with no matches and an unchanged state. -/
theorem query_uninitialized_witness :
    query (fun _ _ _ => []) (PMState.init none) [1, 2] 5 =
      ([], PMState.init none) :=
  query_uninitialized (fun _ _ _ => []) (PMState.init none) [1, 2] 5 rfl

/-- Item of the first upsert call in the C3 scenario (hash hh3). -/
def exItemCall1 : Item := ⟨"uuid-call-1", [5], ⟨some "s.txt", some "hh3", none, none, some 0, none⟩⟩

/-- Item of the second upsert call in the C3 scenario (same hash hh3,
fresh uuid). -/
def exItemCall2 : Item := ⟨"uuid-call-2", [6], ⟨some "s.txt", some "hh3", none, none, some 7, none⟩⟩

/-- Manager state after the first (bootstrapping) call. -/
def exStC3a : PMState := ⟨some ⟨1, [toRecord exItemCall1]⟩, true, true⟩

/-- Trace of the first call: creation, then one insert, no delete. -/
def exOpsC3a : List Op := [Op.insertOp [toRecord exItemCall1]]

/-- Manager state after the second call: both calls' records coexist. -/
def exStC3b : PMState :=
  ⟨some ⟨1, [toRecord exItemCall1, toRecord exItemCall2]⟩, true, true⟩

/-- Trace of the second call: an insert with no preceding delete. -/
def exOpsC3b : List Op := [Op.insertOp [toRecord exItemCall2]]

/-- C3 evaluated at its failing input: index_was_created is set at
bootstrap and never reset, so a second upsert call on the same manager —
a call in which the index was not just bootstrapped — issues no delete
for hash hh3 although a stored record with that hash exists, and the
first call's record survives next to the second call's record of the
same hash. -/
theorem upsert_flag_never_reset :
    upsert (PMState.init none) [exItemCall1] 100 = Except.ok (exStC3a, exOpsC3a) ∧
    upsert exStC3a [exItemCall2] 100 = Except.ok (exStC3b, exOpsC3b) ∧
    exStC3a.index_was_created = true ∧
    (∀ hh, Op.deleteOp hh ∉ exOpsC3b) ∧
    (toRecord exItemCall1).metadata.hash = some "hh3" ∧
    (toRecord exItemCall2).metadata.hash = some "hh3" ∧
    toRecord exItemCall1 ∈ recordsOf exStC3b ∧
    toRecord exItemCall2 ∈ recordsOf exStC3b := by
  refine ⟨rfl, rfl, rfl, ?_, rfl, rfl, by decide, by decide⟩
  intro hh hmem
  rw [exOpsC3b, List.mem_singleton] at hmem
  exact absurd hmem (by simp)

/-- Chunk used in the C1 counterexample, with all attributes the claimed
composite id would draw on. -/
def exDocC1 : Document :=
  ⟨"hello world", ⟨some "f.txt", some "abc123", some 1, none, some 5, none⟩⟩

/-- A first concrete draw of the uuid4 stream. -/
def exUuidA : Nat → String := fun _ => "11111111-1111-4111-8111-111111111111"

/-- A second, different concrete draw of the uuid4 stream. -/
def exUuidB : Nat → String := fun _ => "22222222-2222-4222-8222-222222222222"

/-- A concrete 2-dimensional embedding service. -/
def exEmbed : List String → List (List Int) := fun ts => ts.map (fun _ => [1, 2])

/-- Counterexample for C1: the embedder draws the record id from the
uuid4 generator, so the id is not the composite
contentHash-startOffset-pageIndex-rowIndex key, and embedding the same
chunk in two runs with different uuid draws yields different ids. -/
theorem aembed_id_counterexample :
    (aembed_documents exUuidA exEmbed [exDocC1]).map (fun it => it.id) =
      ["11111111-1111-4111-8111-111111111111"] ∧
    specChunkId exDocC1.metadata = "abc123-5-1-0" ∧
    ("11111111-1111-4111-8111-111111111111" : String) ≠ "abc123-5-1-0" ∧
    (aembed_documents exUuidB exEmbed [exDocC1]).map (fun it => it.id) =
      ["22222222-2222-4222-8222-222222222222"] ∧
    ("11111111-1111-4111-8111-111111111111" : String) ≠
      "22222222-2222-4222-8222-222222222222" :=
  ⟨rfl, rfl, by decide, rfl, by decide⟩

/-- C1 (amended): the id of every VectorRecord the embedder produces is
the next value of the random uuid4 stream, drawn positionally and
independent of the chunk's contentHash, startOffset, pageIndex and
rowIndex; ids are not reproducible from chunk attributes. -/
theorem aembed_ids_from_generator (u : Nat → String)
    (e : List String → List (List Int)) (ds : List Document) :
    (aembed_documents u e ds).map (fun it => it.id) =
      (List.range (aembed_documents u e ds).length).map u := by
  unfold aembed_documents
  simp only [List.map_map, List.length_map]
  rw [show ((fun it : Item => it.id) ∘
      (fun p : Nat × (Document × List Int) => Item.mk (u p.1) p.2.2 p.2.1.metadata)) =
      (u ∘ Prod.fst) from rfl]
  rw [← List.map_map u Prod.fst, List.enum_map_fst, List.enum_length]

/-- Unfolding a successful upsert on a non-empty item list. -/
theorem upsert_cons_ok (st : PMState) (it : Item) (rest : List Item) (bs : Nat)
    (st1 : PMState) (hens : ensureIndex st it = Except.ok st1) :
    upsert st (it :: rest) bs =
      Except.ok (applyOps st1 ((groupByHash (it :: rest)).flatMap
          (groupOps st1.index_was_created bs)),
        (groupByHash (it :: rest)).flatMap (groupOps st1.index_was_created bs)) := by
  simp only [upsert, hens]

/-- Metadata of an embedded item is the metadata of one of the input
documents. -/
theorem aembed_metadata (u : Nat → String) (e : List String → List (List Int))
    (ds : List Document) :
    ∀ it ∈ aembed_documents u e ds, ∃ d ∈ ds, it.metadata = d.metadata := by
  intro it hit
  simp only [aembed_documents, List.mem_map] at hit
  obtain ⟨p, hp, hpe⟩ := hit
  obtain ⟨i, x⟩ := p
  have hx := List.mem_enum hp
  have hxz : x ∈ (ds.filter (fun d => d.page_content != "")).zip
      (e ((ds.filter (fun d => d.page_content != "")).map (fun d => d.page_content))) := by
    rw [hx.2]
    exact List.getElem_mem _
  obtain ⟨d, v⟩ := x
  have hd := (List.of_mem_zip hxz).1
  refine ⟨d, List.mem_of_mem_filter hd, ?_⟩
  rw [← hpe]

/-- The number of embedded items does not depend on the uuid stream. -/
theorem aembed_length_indep (u u2 : Nat → String)
    (e : List String → List (List Int)) (ds : List Document) :
    (aembed_documents u e ds).length = (aembed_documents u2 e ds).length := by
  simp [aembed_documents]

/-- Applying the insert batches of a list of items with fresh distinct
ids appends their records to the index. -/
theorem insert_batches_records (bs : Nat) (hbs : 0 < bs) (l : List Item)
    (idx : PineconeIndex)
    (hfresh : ∀ r ∈ l.map toRecord, ∀ s ∈ idx.records, s.id ≠ r.id)
    (hnd : ((l.map toRecord).map (fun r => r.id)).Nodup) :
    (((chunksOf bs l).map (fun c => Op.insertOp (c.map toRecord))).foldl
        applyOp idx).records = idx.records ++ l.map toRecord := by
  have h1 : (chunksOf bs l).map (fun c => Op.insertOp (c.map toRecord)) =
      (chunksOf bs (l.map toRecord)).map Op.insertOp := by
    rw [chunksOf_map, List.map_map]
    rfl
  rw [h1, List.foldl_map]
  rw [show (fun (i : PineconeIndex) (c : List StoredRecord) =>
      applyOp i (Op.insertOp c)) =
      (fun (i : PineconeIndex) (c : List StoredRecord) => c.foldl upsertOne i)
    from rfl]
  rw [← List.foldl_flatten upsertOne idx (chunksOf bs (l.map toRecord))]
  rw [chunksOf_flatten bs hbs]
  exact foldl_upsertOne_fresh (l.map toRecord) idx hfresh hnd

/-- C2 (amended): re-running the indexing pipeline on the unchanged
chunks of one file (one shared content hash, fresh uuid ids each run)
preserves the final record count — the second run deletes the hash and
re-inserts the same number of records — but each run's stored id list is
that run's uuid draw, so the id sets coincide only if the uuid stream
repeats. -/
theorem reindex_unchanged_count (u1 u2 : Nat → String)
    (embedF : List String → List (List Int)) (chunks : List Document) (hh : String)
    (hhash : ∀ c ∈ chunks, c.metadata.hash = some hh)
    (hne : aembed_documents u1 embedF chunks ≠ [])
    (hdim : firstDim (aembed_documents u1 embedF chunks) ≠ 0)
    (hnd1 : ((aembed_documents u1 embedF chunks).map (fun it => it.id)).Nodup)
    (hnd2 : ((aembed_documents u2 embedF chunks).map (fun it => it.id)).Nodup) :
    ∃ st1 ops1 st2 ops2,
      runIndexing u1 embedF chunks none = Except.ok (st1, ops1) ∧
      runIndexing u2 embedF chunks st1.remote = Except.ok (st2, ops2) ∧
      idsOf st1 = (aembed_documents u1 embedF chunks).map (fun it => it.id) ∧
      idsOf st2 = (aembed_documents u2 embedF chunks).map (fun it => it.id) ∧
      (idsOf st2).length = (idsOf st1).length := by
  obtain ⟨it1, rest1, hitems1⟩ := List.exists_cons_of_ne_nil hne
  have hhash1 : ∀ it ∈ aembed_documents u1 embedF chunks,
      it.metadata.hash = some hh := by
    intro it hit
    obtain ⟨d, hd, hm⟩ := aembed_metadata u1 embedF chunks it hit
    rw [hm]
    exact hhash d hd
  have hhash2 : ∀ it ∈ aembed_documents u2 embedF chunks,
      it.metadata.hash = some hh := by
    intro it hit
    obtain ⟨d, hd, hm⟩ := aembed_metadata u2 embedF chunks it hit
    rw [hm]
    exact hhash d hd
  have hz1 : it1.embedding.length ≠ 0 := by
    rw [hitems1] at hdim
    exact hdim
  have hens1 : ensureIndex (PMState.init none) it1 =
      Except.ok ⟨some ⟨it1.embedding.length, []⟩, true, true⟩ := by
    simp [ensureIndex, PMState.init, get_or_create_index, hz1]
  have hgroups1 : groupByHash (aembed_documents u1 embedF chunks) =
      [(hh, aembed_documents u1 embedF chunks)] :=
    groupByHash_single hh _ hne hhash1
  have hops1 : (groupByHash (aembed_documents u1 embedF chunks)).flatMap
        (groupOps true 100) =
      (chunksOf 100 (aembed_documents u1 embedF chunks)).map
        (fun c => Op.insertOp (c.map toRecord)) := by
    rw [hgroups1]
    simp [groupOps]
  have hnd1r : (((aembed_documents u1 embedF chunks).map toRecord).map
      (fun r => r.id)).Nodup := by
    rw [List.map_map]
    exact hnd1
  have hrec1 : (((groupByHash (aembed_documents u1 embedF chunks)).flatMap
        (groupOps true 100)).foldl applyOp ⟨it1.embedding.length, []⟩).records =
      (aembed_documents u1 embedF chunks).map toRecord := by
    rw [hops1, insert_batches_records 100 (by norm_num) _ _ ?_ hnd1r]
    · simp
    · intro r _ s hs
      simp at hs
  have hrun1 : runIndexing u1 embedF chunks none = Except.ok
      (applyOps ⟨some ⟨it1.embedding.length, []⟩, true, true⟩
        ((groupByHash (it1 :: rest1)).flatMap (groupOps true 100)),
       (groupByHash (it1 :: rest1)).flatMap (groupOps true 100)) := by
    rw [runIndexing, hitems1]
    exact upsert_cons_ok _ it1 rest1 100 _ hens1
  have hids1 : idsOf (applyOps ⟨some ⟨it1.embedding.length, []⟩, true, true⟩
        ((groupByHash (it1 :: rest1)).flatMap (groupOps true 100))) =
      (aembed_documents u1 embedF chunks).map (fun it => it.id) := by
    show ((((groupByHash (it1 :: rest1)).flatMap (groupOps true 100)).foldl
      applyOp ⟨it1.embedding.length, []⟩).records).map (fun r => r.id) = _
    rw [← hitems1, hrec1, List.map_map]
    rfl
  have hlen12 : (aembed_documents u2 embedF chunks).length =
      (aembed_documents u1 embedF chunks).length :=
    aembed_length_indep u2 u1 embedF chunks
  have hne2 : aembed_documents u2 embedF chunks ≠ [] := by
    intro h0
    rw [h0, hitems1] at hlen12
    simp at hlen12
  obtain ⟨it2, rest2, hitems2⟩ := List.exists_cons_of_ne_nil hne2
  have hens2 : ensureIndex (PMState.init (some (((groupByHash
        (it1 :: rest1)).flatMap (groupOps true 100)).foldl applyOp
        ⟨it1.embedding.length, []⟩))) it2 =
      Except.ok (PMState.init (some (((groupByHash (it1 :: rest1)).flatMap
        (groupOps true 100)).foldl applyOp ⟨it1.embedding.length, []⟩))) := by
    simp [ensureIndex, PMState.init]
  have hgroups2 : groupByHash (aembed_documents u2 embedF chunks) =
      [(hh, aembed_documents u2 embedF chunks)] :=
    groupByHash_single hh _ hne2 hhash2
  have hops2 : (groupByHash (aembed_documents u2 embedF chunks)).flatMap
        (groupOps false 100) =
      Op.deleteOp hh :: (chunksOf 100 (aembed_documents u2 embedF chunks)).map
        (fun c => Op.insertOp (c.map toRecord)) := by
    rw [hgroups2]
    simp [groupOps]
  have hdel : (deleteByHashRecords (((groupByHash (it1 :: rest1)).flatMap
      (groupOps true 100)).foldl applyOp ⟨it1.embedding.length, []⟩) hh).records
      = [] := by
    apply deleteByHash_all
    intro r hr
    rw [← hitems1, hrec1] at hr
    obtain ⟨it, hit, rfl⟩ := List.mem_map.mp hr
    exact hhash1 it hit
  have hnd2r : (((aembed_documents u2 embedF chunks).map toRecord).map
      (fun r => r.id)).Nodup := by
    rw [List.map_map]
    exact hnd2
  have hrec2 : (((groupByHash (aembed_documents u2 embedF chunks)).flatMap
        (groupOps false 100)).foldl applyOp
        (((groupByHash (it1 :: rest1)).flatMap (groupOps true 100)).foldl
          applyOp ⟨it1.embedding.length, []⟩)).records =
      (aembed_documents u2 embedF chunks).map toRecord := by
    rw [hops2, List.foldl_cons,
      show ∀ i, applyOp i (Op.deleteOp hh) = deleteByHashRecords i hh
        from fun i => rfl,
      insert_batches_records 100 (by norm_num) _ _ ?_ hnd2r]
    · rw [hdel]
      simp
    · intro r _ s hs
      rw [hdel] at hs
      simp at hs
  have hrun2 : runIndexing u2 embedF chunks (some (((groupByHash
        (it1 :: rest1)).flatMap (groupOps true 100)).foldl applyOp
        ⟨it1.embedding.length, []⟩)) = Except.ok
      (applyOps (PMState.init (some (((groupByHash (it1 :: rest1)).flatMap
          (groupOps true 100)).foldl applyOp ⟨it1.embedding.length, []⟩)))
        ((groupByHash (it2 :: rest2)).flatMap (groupOps false 100)),
       (groupByHash (it2 :: rest2)).flatMap (groupOps false 100)) := by
    rw [runIndexing, hitems2]
    exact upsert_cons_ok _ it2 rest2 100 _ hens2
  have hids2 : idsOf (applyOps (PMState.init (some (((groupByHash
        (it1 :: rest1)).flatMap (groupOps true 100)).foldl applyOp
        ⟨it1.embedding.length, []⟩)))
        ((groupByHash (it2 :: rest2)).flatMap (groupOps false 100))) =
      (aembed_documents u2 embedF chunks).map (fun it => it.id) := by
    show ((((groupByHash (it2 :: rest2)).flatMap (groupOps false 100)).foldl
      applyOp (((groupByHash (it1 :: rest1)).flatMap (groupOps true 100)).foldl
        applyOp ⟨it1.embedding.length, []⟩)).records).map (fun r => r.id) = _
    rw [← hitems2, hrec2, List.map_map]
    rfl
  refine ⟨_, _, _, _, hrun1, hrun2, hids1, hids2, ?_⟩
  rw [hids1, hids2, List.length_map, List.length_map]
  exact hlen12

/-- The unchanged chunk indexed twice in the C2 counterexample. -/
def exChunkC2 : Document := ⟨"contents", ⟨some "g.txt", some "hash-g", none, none, some 0, none⟩⟩

/-- A 1-dimensional embedding service for the C2 scenario. -/
def exEmbed1 : List String → List (List Int) := fun ts => ts.map (fun _ => [3])

/-- The uuid draw of indexing run one. -/
def exUuidRun1 : Nat → String := fun _ => "uuid-run-one"

/-- The uuid draw of indexing run two. -/
def exUuidRun2 : Nat → String := fun _ => "uuid-run-two"

/-- Store state after run one. -/
def exStC2a : PMState :=
  ⟨some ⟨1, [⟨"uuid-run-one", [3], exChunkC2.metadata⟩]⟩, true, true⟩

/-- Trace of run one. -/
def exOpsC2a : List Op := [Op.insertOp [⟨"uuid-run-one", [3], exChunkC2.metadata⟩]]

/-- Store state after run two. -/
def exStC2b : PMState :=
  ⟨some ⟨1, [⟨"uuid-run-two", [3], exChunkC2.metadata⟩]⟩, true, false⟩

/-- Trace of run two. -/
def exOpsC2b : List Op :=
  [Op.deleteOp "hash-g", Op.insertOp [⟨"uuid-run-two", [3], exChunkC2.metadata⟩]]

/-- Counterexample for C2: indexing the same unchanged chunk twice keeps
the record count at one, but the stored id sets of the two runs are
disjoint, because ids are fresh uuid draws and not derived from the
chunk. -/
theorem reindex_ids_counterexample :
    runIndexing exUuidRun1 exEmbed1 [exChunkC2] none =
      Except.ok (exStC2a, exOpsC2a) ∧
    runIndexing exUuidRun2 exEmbed1 [exChunkC2] exStC2a.remote =
      Except.ok (exStC2b, exOpsC2b) ∧
    idsOf exStC2a = ["uuid-run-one"] ∧
    idsOf exStC2b = ["uuid-run-two"] ∧
    "uuid-run-one" ∈ idsOf exStC2a ∧
    "uuid-run-one" ∉ idsOf exStC2b ∧
    (idsOf exStC2b).length = (idsOf exStC2a).length :=
  ⟨rfl, rfl, rfl, rfl, by decide, by decide, rfl⟩

/-- The unchanged chunk of the C2 amended-claim witness. -/
def exChunkW : Document := ⟨"body", ⟨some "w.txt", some "hw", none, none, some 0, none⟩⟩

/-- Uuid draw of witness run one. -/
def exUuidW1 : Nat → String := fun i => "w-one-" ++ toString i

/-- Uuid draw of witness run two. -/
def exUuidW2 : Nat → String := fun i => "w-two-" ++ toString i

/-- A 1-dimensional embedding service for the witness. -/
def exEmbedW : List String → List (List Int) := fun ts => ts.map (fun _ => [7])

/-- Witness for the amended C2 at a concrete one-chunk file. -/
theorem reindex_unchanged_count_witness :
    ∃ st1 ops1 st2 ops2,
      runIndexing exUuidW1 exEmbedW [exChunkW] none = Except.ok (st1, ops1) ∧
      runIndexing exUuidW2 exEmbedW [exChunkW] st1.remote = Except.ok (st2, ops2) ∧
      idsOf st1 = (aembed_documents exUuidW1 exEmbedW [exChunkW]).map (fun it => it.id) ∧
      idsOf st2 = (aembed_documents exUuidW2 exEmbedW [exChunkW]).map (fun it => it.id) ∧
      (idsOf st2).length = (idsOf st1).length :=
  reindex_unchanged_count exUuidW1 exUuidW2 exEmbedW [exChunkW] "hw"
    (by decide) (by decide) (by decide) (by decide) (by decide)

/-- Loading a readable file never raises, whatever its format. -/
theorem load_file_ok_of_readable (f : MFile) (h : f.readable = true) :
    ∃ ds, load_file f = Except.ok ds := by
  have hhash : compute_file_hash f = Except.ok f.sha256 := by
    rw [compute_file_hash, if_pos h]
  simp only [load_file, hhash]
  repeat first
  | exact ⟨_, rfl⟩
  | split

/-- Loading an unreadable file raises from the hash computation. -/
theorem load_file_error_of_unreadable (f : MFile) (h : f.readable = false) :
    load_file f = Except.error ("FileReadFailure: " ++ f.name) := by
  have hhash : compute_file_hash f =
      Except.error ("FileReadFailure: " ++ f.name) := by
    rw [compute_file_hash, if_neg (by simp [h])]
  simp only [load_file, hhash]

/-- C6 (amended): a directory load succeeds exactly when every supported
file in it is readable — an unreadable supported file makes the whole
load raise, aborting the run and discarding even the documents of the
files already processed; there is no per-file recovery for read
failures. -/
theorem load_ok_iff_all_readable (files : List MFile) :
    (∃ v, load files = Except.ok v) ↔
      (∀ f ∈ files, f.ext ∈ SUPPORTED → f.readable = true) := by
  suffices hgen : ∀ (fs : List MFile) (acc : List Document × Nat),
      ((∃ v, loadAux acc fs = Except.ok v) ↔
        (∀ f ∈ fs, f.ext ∈ SUPPORTED → f.readable = true)) from hgen files ([], 0)
  intro fs
  induction fs with
  | nil =>
    intro acc
    constructor
    · intro _ f hf
      simp at hf
    · intro _
      exact ⟨acc, rfl⟩
  | cons f fs ih =>
    intro acc
    by_cases hsup : f.ext ∈ SUPPORTED
    · by_cases hread : f.readable = true
      · obtain ⟨ds, hds⟩ := load_file_ok_of_readable f hread
        constructor
        · rintro ⟨v, hv⟩ g hg hgs
          rcases List.mem_cons.mp hg with rfl | hg
          · exact hread
          · simp only [loadAux, if_pos hsup, hds] at hv
            exact (ih _).mp ⟨v, hv⟩ g hg hgs
        · intro hall
          obtain ⟨v, hv⟩ := (ih (acc.1 ++ ds, acc.2 + 1)).mpr
            (fun g hg hgs => hall g (List.mem_cons_of_mem _ hg) hgs)
          refine ⟨v, ?_⟩
          simp only [loadAux, if_pos hsup, hds]
          exact hv
      · have hread2 : f.readable = false := by
          simpa using hread
        have herr := load_file_error_of_unreadable f hread2
        constructor
        · rintro ⟨v, hv⟩
          simp only [loadAux, if_pos hsup, herr] at hv
          exact Except.noConfusion hv
        · intro hall
          exact absurd (hall f (List.mem_cons_self _ _) hsup) (by simp [hread2])
    · constructor
      · rintro ⟨v, hv⟩ g hg hgs
        rcases List.mem_cons.mp hg with rfl | hg
        · exact absurd hgs hsup
        · simp only [loadAux, if_neg hsup] at hv
          exact (ih acc).mp ⟨v, hv⟩ g hg hgs
      · intro hall
        obtain ⟨v, hv⟩ := (ih acc).mpr
          (fun g hg hgs => hall g (List.mem_cons_of_mem _ hg) hgs)
        refine ⟨v, ?_⟩
        simp only [loadAux, if_neg hsup]
        exact hv

/-- A readable text file next to an unreadable one, for the C6
counterexample. -/
def exGoodFile : MFile := ⟨"good.txt", ".txt", true, "HG", "hello", [], []⟩

/-- The unreadable file of the C6 counterexample. -/
def exBadFile : MFile := ⟨"bad.txt", ".txt", false, "HB", "secret", [], []⟩

/-- Counterexample for C6: with an unreadable file in the directory the
whole load terminates with its error and returns no document units at
all — not even for the readable file, which loads fine on its own. -/
theorem load_unreadable_counterexample :
    load [exGoodFile, exBadFile] = Except.error "FileReadFailure: bad.txt" ∧
    load [exGoodFile] = Except.ok ([⟨"hello", metaBase "good.txt" "HG"⟩], 1) :=
  ⟨rfl, rfl⟩

/-- The spec scenario file: a 2-row comma-separated table. -/
def exCsvFile : MFile := ⟨"doc1.csv", ".csv", true, "HC", "id,name\n1,Alice\n2,Bob", [], []⟩

/-- C8: a successfully parsed tabular file yields one DocumentUnit per
row — row i carrying row index i and the serialized column/value pairs
with NaN cells skipped — and a failed tabular parse degrades to a single
raw-text unit; concretely, the 2-row table id,name/1,Alice/2,Bob yields
row texts id: 1 (newline) name: Alice and id: 2 (newline) name: Bob with
row indices 0 and 1. -/
theorem csv_rows_and_fallback :
    (∀ (t : Table) (raw : String) (m : Metadata),
      (load_csv (Except.ok t) raw m).length = t.rows.length) ∧
    (∀ (t : Table) (raw : String) (m : Metadata) (i : Nat),
      (load_csv (Except.ok t) raw m)[i]? = (t.rows[i]?).map
        (fun r => Document.mk (rowText t.columns r) { m with row := some i })) ∧
    (∀ (e : String) (raw : String) (m : Metadata),
      load_csv (Except.error e) raw m = [Document.mk raw m]) ∧
    rowText ["a", "b", "c"] [some "1", none, some "3"] = "a: 1 \nc: 3" ∧
    load_file exCsvFile = Except.ok
      [⟨"id: 1 \nname: Alice", { metaBase "doc1.csv" "HC" with row := some 0 }⟩,
       ⟨"id: 2 \nname: Bob", { metaBase "doc1.csv" "HC" with row := some 1 }⟩] := by
  refine ⟨?_, ?_, ?_, rfl, rfl⟩
  · intro t raw m
    simp [load_csv]
  · intro t raw m i
    simp only [load_csv, List.getElem?_map, List.getElem?_enum, Option.map_map]
    rfl
  · intro e raw m
    rfl
